import Mathlib

/-!
Verification of the embedding / vector-retrieval core of the
Vector-Embeddings-Retrieval-in-Node.js repository.

Strings are modelled as `List Char`; JavaScript numbers are modelled as
exact arithmetic (`ℚ` for the feature extractor, `ℝ` for the metric and
retrieval layer, with `Real.sqrt` standing for `Math.sqrt`).  Thrown
exceptions are modelled with `Except String`.
-/

namespace VecEmb

/-! ## Character classes used by the regexes in `src/embeddings.js` -/

/-- The character class `\s` of JavaScript regular expressions
(whitespace, including the Unicode space separators). -/
def isJsSpace (c : Char) : Bool :=
  c.toNat == 0x20 || c.toNat == 0x09 || c.toNat == 0x0a || c.toNat == 0x0b ||
  c.toNat == 0x0c || c.toNat == 0x0d || c.toNat == 0xa0 || c.toNat == 0x1680 ||
  (0x2000 ≤ c.toNat && c.toNat ≤ 0x200a) || c.toNat == 0x2028 ||
  c.toNat == 0x2029 || c.toNat == 0x202f || c.toNat == 0x205f ||
  c.toNat == 0x3000 || c.toNat == 0xfeff

/-- The regex class `[aeiou]` (code points of `a e i o u`). -/
def isVowel (c : Char) : Bool :=
  c.toNat == 97 || c.toNat == 101 || c.toNat == 105 || c.toNat == 111 ||
  c.toNat == 117

/-- The regex class `[bcdfghjklmnpqrstvwxyz]`: the lowercase letters
(code points 97–122) other than the five vowels. -/
def isConsonant (c : Char) : Bool :=
  c.toNat == 98 || c.toNat == 99 || c.toNat == 100 || c.toNat == 102 ||
  c.toNat == 103 || c.toNat == 104 || c.toNat == 106 || c.toNat == 107 ||
  c.toNat == 108 || c.toNat == 109 || c.toNat == 110 || c.toNat == 112 ||
  c.toNat == 113 || c.toNat == 114 || c.toNat == 115 || c.toNat == 116 ||
  c.toNat == 118 || c.toNat == 119 || c.toNat == 120 || c.toNat == 121 ||
  c.toNat == 122

/-- The regex class `\d`, i.e. code points 48–57. -/
def isDigitCh (c : Char) : Bool :=
  48 ≤ c.toNat && c.toNat ≤ 57

/-- The regex class `[.!?]` (code points of `. ! ?`). -/
def isTermPunct (c : Char) : Bool :=
  c.toNat == 46 || c.toNat == 33 || c.toNat == 63

/-- The regex class `[A-Z]`, i.e. code points 65–90. -/
def isUpperAZ (c : Char) : Bool :=
  65 ≤ c.toNat && c.toNat ≤ 90

/-! ## `String.prototype.split(/\s+/)`

`sgo inSep s acc` walks the string one character at a time.  `inSep`
records whether we are currently inside a whitespace run (in which case
further whitespace is absorbed into the same separator), and `acc` is the
current token accumulated in reverse.  This reproduces JavaScript
behaviour exactly: separators at the start or end of the string produce
empty tokens, and `"".split` yields `[""]`. -/

def sgo : Bool → List Char → List Char → List (List Char)
  | false, [], acc => [acc.reverse]
  | false, c :: rest, acc =>
      if isJsSpace c then acc.reverse :: sgo true rest [] else sgo false rest (c :: acc)
  | true, [], _ => [[]]
  | true, c :: rest, acc =>
      if isJsSpace c then sgo true rest acc else sgo false rest [c]

/-- Model of `text.split(/\s+/)`. -/
def splitWs (s : List Char) : List (List Char) :=
  sgo false s []

/-! ## The embedder (`generateEmbedding` in `src/embeddings.js`) -/

/-- Model of the JavaScript idiom `num / den || 0` where `num` and `den`
are counts: the division is `NaN` (hence replaced by `0`) exactly when
`0 / 0` occurs, and the guard also maps an exact `0` quotient to `0`.
For count numerators the `Infinity` case is unreachable, so the idiom is
exactly `if den = 0 then 0 else num / den`. -/
def ratioOrZero (num den : Nat) : ℚ :=
  if den = 0 then 0 else (num : ℚ) / (den : ℚ)

/-- Shallow embedding of `generateEmbedding` (`src/embeddings.js`,
lines 12–31).  `Char.toLower` models `toLowerCase` on the basic latin
range, which is faithful for the ASCII inputs at issue.  Note that the
uppercase feature (index 7) runs its `[A-Z]` match on `normalized`, i.e.
on the lowercased text, exactly as the source does. -/
def generateEmbedding (text : List Char) : List ℚ :=
  let normalized := text.map Char.toLower
  let words := splitWs normalized
  [ (words.length : ℚ) / 10,
    (normalized.length : ℚ) / 50,
    ratioOrZero (normalized.countP isVowel) normalized.length,
    ratioOrZero (normalized.countP isConsonant) normalized.length,
    ratioOrZero (normalized.countP isDigitCh) normalized.length,
    ratioOrZero (normalized.countP isTermPunct) words.length,
    min (if 0 < words.length then
      (((words.map List.length).sum : ℚ) / (words.length : ℚ)) / 10 else 0) 1,
    ratioOrZero (normalized.countP isUpperAZ) text.length,
    if text.contains '?' then 1 else 0,
    if text.contains '!' then 1 else 0 ]

/-- The uppercase-letter count of the original (pre-lowercasing) text, as
the spec describes feature 8 ("uppercase-letter count / original text
length"). -/
def uppercaseCount (text : List Char) : Nat :=
  text.countP isUpperAZ

/-! ## `chunkText` (`src/TextChunking.js`)

The source loop `for (let i = 0; i < text.length; i += n)` consumes at
least one character per iteration whenever `n ≥ 1`, so `text.length` is
enough fuel; the fuel-indexed recursion below is therefore exact for
every `n ≥ 1` (for `n = 0` the source loop does not terminate on a
non-empty string, and every claim assumes `n ≥ 1`). -/

def chunkGo (n : Nat) : Nat → List Char → Nat → List (Nat × List Char)
  | _, [], _ => []
  | 0, _ :: _, _ => []
  | fuel + 1, c :: rest, id =>
      (id, (c :: rest).take n) :: chunkGo n fuel ((c :: rest).drop n) (id + 1)

/-- Shallow embedding of `chunkText` (`src/TextChunking.js`, lines 1–14):
slices of `n` characters, each paired with its 1-based id. -/
def chunkText (text : List Char) (charactersPerChunk : Nat) : List (Nat × List Char) :=
  chunkGo charactersPerChunk text.length text 1

/-! ## Metric library (`src/embeddings.js`, lines 39–81)

Vectors are `List ℝ`; `Math.sqrt` is `Real.sqrt`; a thrown `Error` is an
`Except.error` carrying the message string. -/

/-- The message of the error thrown on a dimension mismatch. -/
def dimensionMismatch : String := "Vectors must have the same dimensions"

/-- Shallow embedding of `cosineSimilarity` (`src/embeddings.js`,
lines 39–62).  The single loop accumulates the dot product and the two
sums of squares; since the length check has already passed, the loop is
a fold over the zipped vectors. -/
noncomputable def cosineSimilarity (vecA vecB : List ℝ) : Except String ℝ :=
  if vecA.length ≠ vecB.length then
    .error dimensionMismatch
  else
    let dotProduct := (List.zipWith (fun x y => x * y) vecA vecB).sum
    let magnitudeA := Real.sqrt ((vecA.map (fun x => x * x)).sum)
    let magnitudeB := Real.sqrt ((vecB.map (fun x => x * x)).sum)
    if magnitudeA = 0 ∨ magnitudeB = 0 then
      .ok 0
    else
      .ok (dotProduct / (magnitudeA * magnitudeB))

/-- Shallow embedding of `euclideanDistance` (`src/embeddings.js`,
lines 70–81). -/
noncomputable def euclideanDistance (vecA vecB : List ℝ) : Except String ℝ :=
  if vecA.length ≠ vecB.length then
    .error dimensionMismatch
  else
    .ok (Real.sqrt ((List.zipWith (fun x y => (x - y) ^ 2) vecA vecB).sum))

/-! ## The vector store (`src/vectorStore.js`)

Methods are modelled in state-passing style: each takes the receiver
store and returns its result paired with the store after the call.
`addDocument` stamps `new Date().toISOString()`; the clock is an input
of the model, passed as the `now` argument. -/

/-- A stored document record: `{id, text, embedding, metadata, timestamp}`. -/
structure StoredDoc where
  id : Nat
  text : List Char
  embedding : List ℝ
  metadata : List (List Char × List Char)
  timestamp : List Char

/-- The store state: `this.documents` and `this.nextId`. -/
structure VectorStore where
  documents : List StoredDoc
  nextId : Nat

/-- `new VectorStore()`. -/
def VectorStore.new : VectorStore :=
  { documents := [], nextId := 1 }

/-- `addDocument` (`src/vectorStore.js`, lines 108–119). -/
def VectorStore.addDocument (s : VectorStore) (text : List Char) (embedding : List ℝ)
    (metadata : List (List Char × List Char)) (now : List Char) : StoredDoc × VectorStore :=
  let document : StoredDoc :=
    { id := s.nextId, text := text, embedding := embedding, metadata := metadata,
      timestamp := now }
  (document, { documents := s.documents ++ [document], nextId := s.nextId + 1 })

/-- `getDocument` (`find` first match, else `null`). -/
def VectorStore.getDocument (s : VectorStore) (id : Nat) : Option StoredDoc :=
  s.documents.find? (fun doc => doc.id == id)

/-- `deleteDocument` (`findIndex` then `splice(index, 1)`). -/
def VectorStore.deleteDocument (s : VectorStore) (id : Nat) : Bool × VectorStore :=
  match s.documents.findIdx? (fun doc => doc.id == id) with
  | some index => (true, { documents := s.documents.eraseIdx index, nextId := s.nextId })
  | none => (false, s)

/-- `getAllDocuments`. -/
def VectorStore.getAllDocuments (s : VectorStore) : List StoredDoc :=
  s.documents

/-- `clear` (`src/vectorStore.js`, lines 201–204). -/
def VectorStore.clear (_s : VectorStore) : VectorStore :=
  { documents := [], nextId := 1 }

/-- A search result: the spread `{...doc, score}` of a stored record
augmented with the computed similarity. -/
structure ScoredResult where
  doc : StoredDoc
  score : ℝ

/-- A distance-search result: the spread `{...doc, distance}`. -/
structure DistResult where
  doc : StoredDoc
  distance : ℝ

/-- The `this.documents.map(doc => ({...doc, score: cosineSimilarity(q,
doc.embedding)}))` step of `search`: a thrown `DimensionMismatch` inside
the callback aborts the whole map, so the map is a traversal in
`Except`. -/
noncomputable def scoreDocs (queryEmbedding : List ℝ) :
    List StoredDoc → Except String (List ScoredResult)
  | [] => .ok []
  | doc :: rest =>
      match cosineSimilarity queryEmbedding doc.embedding with
      | .error e => .error e
      | .ok similarity =>
          match scoreDocs queryEmbedding rest with
          | .error e => .error e
          | .ok tail => .ok ({ doc := doc, score := similarity } :: tail)

/-- `search` (`src/vectorStore.js`, lines 128–142): score every record,
filter by `score >= threshold`, sort by the comparator
`(a, b) => b.score - a.score` (JavaScript array sort is stable, hence
`mergeSort` with `b.score ≤ a.score`), and `slice(0, topK)`.  The method
performs no assignment, so the store after the call is the receiver. -/
noncomputable def VectorStore.search (s : VectorStore) (queryEmbedding : List ℝ)
    (topK : Nat) (threshold : ℝ) : Except String (List ScoredResult) × VectorStore :=
  (match scoreDocs queryEmbedding s.documents with
   | .error e => .error e
   | .ok results =>
       .ok (((results.filter (fun r => decide (threshold ≤ r.score))).mergeSort
         (fun a b => decide (b.score ≤ a.score))).take topK), s)

/-- The mapping step of `searchByDistance`. -/
noncomputable def distDocs (queryEmbedding : List ℝ) :
    List StoredDoc → Except String (List DistResult)
  | [] => .ok []
  | doc :: rest =>
      match euclideanDistance queryEmbedding doc.embedding with
      | .error e => .error e
      | .ok distance =>
          match distDocs queryEmbedding rest with
          | .error e => .error e
          | .ok tail => .ok ({ doc := doc, distance := distance } :: tail)

/-- `searchByDistance` (`src/vectorStore.js`, lines 151–165): distances,
filter by `distance <= maxDistance` (default `Infinity`, modelled as
`⊤ : WithTop ℝ`), stable ascending sort, `slice(0, topK)`. -/
noncomputable def VectorStore.searchByDistance (s : VectorStore) (queryEmbedding : List ℝ)
    (topK : Nat) (maxDistance : WithTop ℝ) : Except String (List DistResult) × VectorStore :=
  (match distDocs queryEmbedding s.documents with
   | .error e => .error e
   | .ok results =>
       .ok (((results.filter
           (fun r => decide ((r.distance : WithTop ℝ) ≤ maxDistance))).mergeSort
         (fun a b => decide (a.distance ≤ b.distance))).take topK), s)

/-- A sample stored record (id 1, empty text and metadata) with the
given embedding, as produced by the first `addDocument` on a fresh
store; used by concrete witnesses. -/
def sampleDoc (e : List ℝ) : StoredDoc :=
  { id := 1, text := [], embedding := e, metadata := [], timestamp := [] }

/-! ## Helper lemmas about characters and splitting -/

theorem char_toNat_ofNat {n : Nat} (h : n.isValidChar) : (Char.ofNat n).toNat = n := by
  simp only [Char.ofNat, h, dif_pos, Char.ofNatAux, Char.toNat, UInt32.toNat]
  simp [BitVec.toNat_ofNatLt]

theorem isUpperAZ_toLower (c : Char) : isUpperAZ (Char.toLower c) = false := by
  unfold Char.toLower
  by_cases h : c.toNat ≥ 65 ∧ c.toNat ≤ 90
  · rw [if_pos h]
    have hv : (c.toNat + 32).isValidChar := Or.inl (by omega)
    have hr := char_toNat_ofNat hv
    simp only [isUpperAZ, hr, Bool.and_eq_false_iff, decide_eq_false_iff_not, not_le]
    omega
  · rw [if_neg h]
    simp only [isUpperAZ, Bool.and_eq_false_iff, decide_eq_false_iff_not, not_le]
    omega

theorem countP_upperAZ_map_toLower (t : List Char) :
    (t.map Char.toLower).countP isUpperAZ = 0 := by
  rw [List.countP_eq_zero]
  intro a ha
  obtain ⟨c, -, rfl⟩ := List.mem_map.mp ha
  simp [isUpperAZ_toLower]

theorem ratioOrZero_zero (d : Nat) : ratioOrZero 0 d = 0 := by
  unfold ratioOrZero
  split <;> simp

theorem toLower_of_isJsSpace {c : Char} (h : isJsSpace c = true) : Char.toLower c = c := by
  simp only [isJsSpace, Bool.or_eq_true, beq_iff_eq, Bool.and_eq_true,
    decide_eq_true_eq] at h
  unfold Char.toLower
  rw [if_neg (by omega)]

theorem isVowel_eq_false_of_space {c : Char} (h : isJsSpace c = true) :
    isVowel c = false := by
  simp only [isJsSpace, Bool.or_eq_true, beq_iff_eq, Bool.and_eq_true,
    decide_eq_true_eq] at h
  simp only [isVowel, Bool.or_eq_false_iff, beq_eq_false_iff_ne, ne_eq]
  omega

theorem isConsonant_eq_false_of_space {c : Char} (h : isJsSpace c = true) :
    isConsonant c = false := by
  simp only [isJsSpace, Bool.or_eq_true, beq_iff_eq, Bool.and_eq_true,
    decide_eq_true_eq] at h
  simp only [isConsonant, Bool.or_eq_false_iff, beq_eq_false_iff_ne, ne_eq]
  omega

theorem isDigitCh_eq_false_of_space {c : Char} (h : isJsSpace c = true) :
    isDigitCh c = false := by
  simp only [isJsSpace, Bool.or_eq_true, beq_iff_eq, Bool.and_eq_true,
    decide_eq_true_eq] at h
  simp only [isDigitCh, Bool.and_eq_false_iff, decide_eq_false_iff_not, not_le]
  omega

theorem isUpperAZ_eq_false_of_space {c : Char} (h : isJsSpace c = true) :
    isUpperAZ c = false := by
  simp only [isJsSpace, Bool.or_eq_true, beq_iff_eq, Bool.and_eq_true,
    decide_eq_true_eq] at h
  simp only [isUpperAZ, Bool.and_eq_false_iff, decide_eq_false_iff_not, not_le]
  omega

theorem isTermPunct_eq_false_of_space {c : Char} (h : isJsSpace c = true) :
    isTermPunct c = false := by
  simp only [isJsSpace, Bool.or_eq_true, beq_iff_eq, Bool.and_eq_true,
    decide_eq_true_eq] at h
  simp only [isTermPunct, Bool.or_eq_false_iff, beq_eq_false_iff_ne, ne_eq]
  omega

theorem contains_eq_false_of_space {t : List Char} (h : ∀ c ∈ t, isJsSpace c = true)
    (a : Char) (ha : isJsSpace a = false) : t.contains a = false := by
  cases hc : t.contains a with
  | false => rfl
  | true =>
    exfalso
    have hm : a ∈ t := List.elem_iff.mp hc
    rw [h a hm] at ha
    cases ha

theorem sgo_true_all_space :
    ∀ (rest acc : List Char), (∀ c ∈ rest, isJsSpace c = true) →
      sgo true rest acc = [[]]
  | [], _, _ => rfl
  | c :: rest, acc, h => by
    have hc : isJsSpace c = true := h c (by simp)
    simp only [sgo, hc, if_pos]
    exact sgo_true_all_space rest acc (fun d hd => h d (by simp [hd]))

theorem splitWs_all_space {t : List Char} (hne : t ≠ [])
    (h : ∀ c ∈ t, isJsSpace c = true) : splitWs t = [[], []] := by
  match t, hne with
  | c :: rest, _ =>
    have hc : isJsSpace c = true := h c (by simp)
    unfold splitWs
    simp only [sgo, hc, if_pos, List.reverse_nil]
    rw [sgo_true_all_space rest [] (fun d hd => h d (by simp [hd]))]

/-! ## Helper lemmas about `chunkGo` -/

theorem chunkGo_nil (n fuel id : Nat) : chunkGo n fuel [] id = [] := by
  cases fuel <;> rfl

theorem ceil_div_step {n L : Nat} (hn : 0 < n) (hL : 1 ≤ L) :
    (L - n + n - 1) / n + 1 = (L + n - 1) / n := by
  rw [Nat.div_eq_sub_div hn (show n ≤ L + n - 1 by omega)]
  have e1 : L + n - 1 - n = L - 1 := by omega
  rw [e1]
  by_cases hc : n ≤ L
  · have e2 : L - n + n - 1 = L - 1 := by omega
    rw [e2]
  · have e2 : L - n + n - 1 = n - 1 := by omega
    rw [e2, Nat.div_eq_of_lt (by omega), Nat.div_eq_of_lt (by omega)]

theorem chunkGo_length {n : Nat} (hn : 0 < n) :
    ∀ (fuel : Nat) (t : List Char) (id : Nat), t.length ≤ fuel →
      (chunkGo n fuel t id).length = (t.length + n - 1) / n := by
  intro fuel
  induction fuel with
  | zero =>
    intro t id ht
    have h0 : t = [] := List.length_eq_zero.mp (Nat.le_zero.mp ht)
    subst h0
    rw [chunkGo_nil]
    rw [show ([] : List Char).length = 0 from rfl, Nat.div_eq_of_lt (by omega)]
    rfl
  | succ f ih =>
    intro t id ht
    cases t with
    | nil =>
      rw [chunkGo_nil]
      rw [show ([] : List Char).length = 0 from rfl, Nat.div_eq_of_lt (by omega)]
      rfl
    | cons c rest =>
      have hd : ((c :: rest).drop n).length ≤ f := by
        rw [List.length_drop]
        simp only [List.length_cons] at ht ⊢
        omega
      simp only [chunkGo, List.length_cons]
      rw [ih _ _ hd, List.length_drop]
      simp only [List.length_cons]
      exact ceil_div_step hn (by omega)

theorem chunkGo_join {n : Nat} (hn : 0 < n) :
    ∀ (fuel : Nat) (t : List Char) (id : Nat), t.length ≤ fuel →
      ((chunkGo n fuel t id).map Prod.snd).flatten = t := by
  intro fuel
  induction fuel with
  | zero =>
    intro t id ht
    have h0 : t = [] := List.length_eq_zero.mp (Nat.le_zero.mp ht)
    subst h0
    rw [chunkGo_nil]
    rfl
  | succ f ih =>
    intro t id ht
    cases t with
    | nil => rw [chunkGo_nil]; rfl
    | cons c rest =>
      have hd : ((c :: rest).drop n).length ≤ f := by
        rw [List.length_drop]
        simp only [List.length_cons] at ht ⊢
        omega
      simp only [chunkGo, List.map_cons, List.flatten_cons]
      rw [ih _ _ hd, List.take_append_drop]

theorem chunkGo_fst {n : Nat} (hn : 0 < n) :
    ∀ (fuel : Nat) (t : List Char) (id : Nat), t.length ≤ fuel →
      (chunkGo n fuel t id).map Prod.fst =
        List.range' id (chunkGo n fuel t id).length := by
  intro fuel
  induction fuel with
  | zero =>
    intro t id ht
    have h0 : t = [] := List.length_eq_zero.mp (Nat.le_zero.mp ht)
    subst h0
    rw [chunkGo_nil]
    rfl
  | succ f ih =>
    intro t id ht
    cases t with
    | nil => rw [chunkGo_nil]; rfl
    | cons c rest =>
      have hd : ((c :: rest).drop n).length ≤ f := by
        rw [List.length_drop]
        simp only [List.length_cons] at ht ⊢
        omega
      simp only [chunkGo, List.map_cons, List.length_cons]
      rw [ih _ _ hd, List.range'_succ]

theorem chunkGo_size_le (n : Nat) :
    ∀ (fuel : Nat) (t : List Char) (id : Nat),
      ∀ p ∈ chunkGo n fuel t id, p.2.length ≤ n := by
  intro fuel
  induction fuel with
  | zero =>
    intro t id p hp
    cases t with
    | nil => rw [chunkGo_nil] at hp; cases hp
    | cons c rest => cases hp
  | succ f ih =>
    intro t id p hp
    cases t with
    | nil => rw [chunkGo_nil] at hp; cases hp
    | cons c rest =>
      simp only [chunkGo, List.mem_cons] at hp
      rcases hp with rfl | hp
      · simp only [List.length_take]
        omega
      · exact ih _ _ p hp

theorem chunkGo_dropLast {n : Nat} (hn : 0 < n) :
    ∀ (fuel : Nat) (t : List Char) (id : Nat), t.length ≤ fuel →
      ∀ p ∈ (chunkGo n fuel t id).dropLast, p.2.length = n := by
  intro fuel
  induction fuel with
  | zero =>
    intro t id ht p hp
    have h0 : t = [] := List.length_eq_zero.mp (Nat.le_zero.mp ht)
    subst h0
    rw [chunkGo_nil] at hp
    cases hp
  | succ f ih =>
    intro t id ht p hp
    cases t with
    | nil => rw [chunkGo_nil] at hp; cases hp
    | cons c rest =>
      have hd : ((c :: rest).drop n).length ≤ f := by
        rw [List.length_drop]
        simp only [List.length_cons] at ht ⊢
        omega
      simp only [chunkGo] at hp
      cases hl : chunkGo n f ((c :: rest).drop n) (id + 1) with
      | nil => rw [hl] at hp; cases hp
      | cons y ys =>
        rw [hl, List.dropLast_cons₂, List.mem_cons] at hp
        rcases hp with rfl | hp
        · have hne : (c :: rest).drop n ≠ [] := by
            intro h0
            rw [h0, chunkGo_nil] at hl
            cases hl
          have hlen : n < (c :: rest).length := by
            by_contra hcon
            exact hne (List.drop_eq_nil_of_le (by omega))
          simp only [List.length_take]
          omega
        · rw [← hl] at hp
          exact ih _ _ hd p hp


/-! ## Claims about the embedder and the chunker -/

/-- C1: the spec says component 8 of the embedding is the
uppercase-letter count of the original (pre-lowercasing) text divided by
its length, nonzero e.g. for "Hello".  The code instead runs the `[A-Z]`
match on the already-lowercased text, so this component is `0` for every
input: the feature named "Uppercase ratio (before normalization)" in the
code's own comment is unconditionally zero, while the intended value for
"Hello" is `1/5 ≠ 0`. -/
theorem claim1_uppercase_feature_always_zero :
    (∀ text : List Char, (generateEmbedding text).getD 7 0 = 0) ∧
    (generateEmbedding ['H', 'e', 'l', 'l', 'o']).getD 7 0 = 0 ∧
    (uppercaseCount ['H', 'e', 'l', 'l', 'o'] : ℚ) /
      ((['H', 'e', 'l', 'l', 'o'] : List Char).length : ℚ) = 1 / 5 ∧
    (1 / 5 : ℚ) ≠ 0 := by
  refine ⟨?_, ?_, ?_, by norm_num⟩
  · intro text
    show ratioOrZero ((text.map Char.toLower).countP isUpperAZ) text.length = 0
    rw [countP_upperAZ_map_toLower, ratioOrZero_zero]
  · show ratioOrZero (((['H', 'e', 'l', 'l', 'o'] : List Char).map Char.toLower).countP
      isUpperAZ) (['H', 'e', 'l', 'l', 'o'] : List Char).length = 0
    rw [countP_upperAZ_map_toLower, ratioOrZero_zero]
  · have h1 : uppercaseCount ['H', 'e', 'l', 'l', 'o'] = 1 := by decide
    rw [h1]
    norm_num

/-- C2, counterexample: the claim asserts that the word count of `""` and
`"   "` is zero and that component 1 (word count / 10) is `0`.  In fact
`"".split(/\s+/)` is `[""]` (one token) and `"   ".split(/\s+/)` is
`["", ""]` (two tokens), so component 1 is `1/10` resp. `2/10`. -/
theorem claim2_counterexample :
    (splitWs ([] : List Char)).length = 1 ∧
    (generateEmbedding []).getD 0 0 = 1 / 10 ∧ (1 / 10 : ℚ) ≠ 0 ∧
    (splitWs [' ', ' ', ' ']).length = 2 ∧
    (generateEmbedding [' ', ' ', ' ']).getD 0 0 = 1 / 5 ∧ (1 / 5 : ℚ) ≠ 0 := by
  refine ⟨by decide, ?_, by norm_num, by decide, ?_, by norm_num⟩
  · show ((splitWs (([] : List Char).map Char.toLower)).length : ℚ) / 10 = 1 / 10
    have h1 : (splitWs (([] : List Char).map Char.toLower)).length = 1 := by decide
    rw [h1]
    norm_num
  · show ((splitWs (([' ', ' ', ' '] : List Char).map Char.toLower)).length : ℚ) / 10 = 1 / 5
    have h1 : (splitWs (([' ', ' ', ' '] : List Char).map Char.toLower)).length = 2 := by
      decide
    rw [h1]
    norm_num

/-- C2, amended: `generateEmbedding("")` and `generateEmbedding` of any
all-whitespace string produce only well-defined (no-NaN, no-Infinity)
components, and every ratio with a character-count or word-count
denominator is `0`; but the split yields 1 empty token for `""` and 2
for a non-empty all-whitespace string, so component 1 is `1/10` resp.
`2/10` (and component 2 is `length/50`), not `0`. -/
theorem claim2_empty_input :
    generateEmbedding [] = [1 / 10, 0, 0, 0, 0, 0, 0, 0, 0, 0] ∧
    ∀ text : List Char, text ≠ [] → (∀ c ∈ text, isJsSpace c = true) →
      generateEmbedding text =
        [1 / 5, (text.length : ℚ) / 50, 0, 0, 0, 0, 0, 0, 0, 0] := by
  refine ⟨?_, ?_⟩
  · have hsp : splitWs ([] : List Char) = [[]] := by decide
    simp only [generateEmbedding, List.map_nil, hsp]
    norm_num [ratioOrZero]
  intro t hne hws
  have hlow : t.map Char.toLower = t := by
    have h : ∀ c ∈ t, Char.toLower c = id c := fun c hc => toLower_of_isJsSpace (hws c hc)
    rw [List.map_congr_left h, List.map_id]
  have hsplit : splitWs t = [[], []] := splitWs_all_space hne hws
  have hlen : t.length ≠ 0 := fun h0 => hne (List.length_eq_zero.mp h0)
  show (let normalized := t.map Char.toLower
        let words := splitWs normalized
        [ (words.length : ℚ) / 10,
          (normalized.length : ℚ) / 50,
          ratioOrZero (normalized.countP isVowel) normalized.length,
          ratioOrZero (normalized.countP isConsonant) normalized.length,
          ratioOrZero (normalized.countP isDigitCh) normalized.length,
          ratioOrZero (normalized.countP isTermPunct) words.length,
          min (if 0 < words.length then
            (((words.map List.length).sum : ℚ) / (words.length : ℚ)) / 10 else 0) 1,
          ratioOrZero (normalized.countP isUpperAZ) t.length,
          if t.contains '?' then 1 else 0,
          if t.contains '!' then 1 else 0 ]) = _
  simp only [hlow, hsplit]
  have hv : t.countP isVowel = 0 :=
    List.countP_eq_zero.mpr fun c hc => by simp [isVowel_eq_false_of_space (hws c hc)]
  have hcons : t.countP isConsonant = 0 :=
    List.countP_eq_zero.mpr fun c hc => by simp [isConsonant_eq_false_of_space (hws c hc)]
  have hdig : t.countP isDigitCh = 0 :=
    List.countP_eq_zero.mpr fun c hc => by simp [isDigitCh_eq_false_of_space (hws c hc)]
  have hpun : t.countP isTermPunct = 0 :=
    List.countP_eq_zero.mpr fun c hc => by simp [isTermPunct_eq_false_of_space (hws c hc)]
  have hup : t.countP isUpperAZ = 0 :=
    List.countP_eq_zero.mpr fun c hc => by simp [isUpperAZ_eq_false_of_space (hws c hc)]
  have hq : t.contains '?' = false := contains_eq_false_of_space hws '?' (by decide)
  have hb : t.contains '!' = false := contains_eq_false_of_space hws '!' (by decide)
  rw [hv, hcons, hdig, hpun, hup, hq, hb]
  simp only [ratioOrZero_zero, if_false, Bool.false_eq_true]
  norm_num [ratioOrZero]

/-- Witness for C2 (amended) at the concrete all-whitespace input
`"   "`. -/
theorem claim2_empty_input_witness :
    ([' ', ' ', ' '] : List Char) ≠ [] ∧
    generateEmbedding [' ', ' ', ' '] =
      [1 / 5, (3 : ℚ) / 50, 0, 0, 0, 0, 0, 0, 0, 0] := by
  refine ⟨by decide, ?_⟩
  have h := claim2_empty_input.2 [' ', ' ', ' '] (by decide) (by decide)
  simpa using h

/-- C8: for `n ≥ 1`, `chunkText text n` produces `⌈L/n⌉ = (L + n - 1)/n`
chunks, with ids `1, 2, ...` in order, whose texts concatenate back to
`text`, where every chunk has length at most `n` and every chunk except
possibly the last has length exactly `n`. -/
theorem claim8_chunking (text : List Char) (n : Nat) (hn : 1 ≤ n) :
    (chunkText text n).length = (text.length + n - 1) / n ∧
    (chunkText text n).map Prod.fst = List.range' 1 ((text.length + n - 1) / n) ∧
    ((chunkText text n).map Prod.snd).flatten = text ∧
    (∀ p ∈ (chunkText text n).dropLast, p.2.length = n) ∧
    (∀ p ∈ chunkText text n, p.2.length ≤ n) := by
  have hfuel : text.length ≤ text.length := Nat.le_refl _
  refine ⟨chunkGo_length hn _ _ _ hfuel, ?_, chunkGo_join hn _ _ _ hfuel,
    chunkGo_dropLast hn _ _ _ hfuel, chunkGo_size_le n _ _ _⟩
  rw [show chunkText text n = chunkGo n text.length text 1 from rfl,
    chunkGo_fst hn _ _ _ hfuel, chunkGo_length hn _ _ _ hfuel]

/-- Witness for C8 at `text = "abcde"`, `n = 2`. -/
theorem claim8_chunking_witness :
    (1 : Nat) ≤ 2 ∧
    (chunkText ['a', 'b', 'c', 'd', 'e'] 2).length = (5 + 2 - 1) / 2 ∧
    ((chunkText ['a', 'b', 'c', 'd', 'e'] 2).map Prod.snd).flatten =
      ['a', 'b', 'c', 'd', 'e'] ∧
    (chunkText ['a', 'b', 'c', 'd', 'e'] 2).map Prod.fst =
      List.range' 1 ((5 + 2 - 1) / 2) := by
  have h := claim8_chunking ['a', 'b', 'c', 'd', 'e'] 2 (by decide)
  exact ⟨by decide, h.1, h.2.2.1, h.2.1⟩

/-- C9: every embedding has exactly 10 components. -/
theorem claim9_dimension_ten (text : List Char) :
    (generateEmbedding text).length = 10 := rfl

/-! ## Helper lemmas about the metric library -/

theorem cosineSimilarity_eq_error_iff (a b : List ℝ) (e : String) :
    cosineSimilarity a b = .error e ↔ e = dimensionMismatch ∧ a.length ≠ b.length := by
  simp only [cosineSimilarity]
  by_cases hc : a.length ≠ b.length
  · rw [if_pos hc]
    simp [hc, eq_comm]
  · rw [if_neg hc]
    constructor
    · intro h
      split at h <;> exact Except.noConfusion h
    · rintro ⟨-, hne⟩
      exact absurd hne hc

theorem euclideanDistance_eq_error_iff (a b : List ℝ) (e : String) :
    euclideanDistance a b = .error e ↔ e = dimensionMismatch ∧ a.length ≠ b.length := by
  simp only [euclideanDistance]
  by_cases hc : a.length ≠ b.length
  · rw [if_pos hc]
    simp [hc, eq_comm]
  · rw [if_neg hc]
    constructor
    · intro h
      exact Except.noConfusion h
    · rintro ⟨-, hne⟩
      exact absurd hne hc

theorem cosineSimilarity_ok_of_length {a b : List ℝ} (h : a.length = b.length) :
    ∃ x, cosineSimilarity a b = .ok x := by
  simp only [cosineSimilarity]
  rw [if_neg (not_ne_iff.mpr h)]
  by_cases hm : Real.sqrt ((a.map (fun x => x * x)).sum) = 0 ∨
      Real.sqrt ((b.map (fun x => x * x)).sum) = 0
  · exact ⟨0, if_pos hm⟩
  · exact ⟨_, if_neg hm⟩

theorem euclideanDistance_ok_of_length {a b : List ℝ} (h : a.length = b.length) :
    euclideanDistance a b =
      .ok (Real.sqrt ((List.zipWith (fun x y => (x - y) ^ 2) a b).sum)) := by
  simp only [euclideanDistance]
  rw [if_neg (not_ne_iff.mpr h)]

theorem cosineSimilarity_length_of_ok {a b : List ℝ} {x : ℝ}
    (h : cosineSimilarity a b = .ok x) : a.length = b.length := by
  by_contra hc
  simp only [cosineSimilarity] at h
  rw [if_pos hc] at h
  exact Except.noConfusion h

theorem euclideanDistance_length_of_ok {a b : List ℝ} {x : ℝ}
    (h : euclideanDistance a b = .ok x) : a.length = b.length := by
  by_contra hc
  simp only [euclideanDistance] at h
  rw [if_pos hc] at h
  exact Except.noConfusion h

theorem euclideanDistance_nonneg {a b : List ℝ} {x : ℝ}
    (h : euclideanDistance a b = .ok x) : 0 ≤ x := by
  have hl := euclideanDistance_length_of_ok h
  rw [euclideanDistance_ok_of_length hl] at h
  injection h with h'
  rw [← h']
  exact Real.sqrt_nonneg _

/-! ## Helper lemmas about `scoreDocs` and `distDocs` -/

theorem scoreDocs_ok_spec (q : List ℝ) :
    ∀ (docs : List StoredDoc) (scored : List ScoredResult),
      scoreDocs q docs = .ok scored →
      scored.map (fun x => x.doc) = docs ∧
      ∀ x ∈ scored, cosineSimilarity q x.doc.embedding = .ok x.score := by
  intro docs
  induction docs with
  | nil =>
    intro scored h
    simp only [scoreDocs] at h
    injection h with h'
    subst h'
    simp
  | cons d rest ih =>
    intro scored h
    simp only [scoreDocs] at h
    cases hc : cosineSimilarity q d.embedding with
    | error e => rw [hc] at h; exact Except.noConfusion h
    | ok sim =>
      rw [hc] at h
      cases hs : scoreDocs q rest with
      | error e => rw [hs] at h; exact Except.noConfusion h
      | ok tail =>
        rw [hs] at h
        injection h with h'
        subst h'
        obtain ⟨hmap, hall⟩ := ih tail hs
        refine ⟨by simp [hmap], ?_⟩
        intro x hx
        rcases List.mem_cons.mp hx with rfl | hx'
        · exact hc
        · exact hall x hx'

theorem scoreDocs_error_of_mismatch (q : List ℝ) :
    ∀ docs : List StoredDoc, (∃ d ∈ docs, d.embedding.length ≠ q.length) →
      scoreDocs q docs = .error dimensionMismatch := by
  intro docs
  induction docs with
  | nil =>
    rintro ⟨d, hd, -⟩
    cases hd
  | cons d rest ih =>
    rintro ⟨d', hd', hne⟩
    simp only [scoreDocs]
    cases hc : cosineSimilarity q d.embedding with
    | error e =>
      have he := (cosineSimilarity_eq_error_iff _ _ _).mp hc
      simp only [hc]
      rw [he.1]
    | ok sim =>
      rcases List.mem_cons.mp hd' with rfl | hmem
      · have hlen := cosineSimilarity_length_of_ok hc
        exact absurd hlen.symm hne
      · simp only [hc, ih ⟨d', hmem, hne⟩]

theorem scoreDocs_ok_of_match (q : List ℝ) :
    ∀ docs : List StoredDoc, (∀ d ∈ docs, d.embedding.length = q.length) →
      ∃ scored, scoreDocs q docs = .ok scored := by
  intro docs
  induction docs with
  | nil => exact fun _ => ⟨[], rfl⟩
  | cons d rest ih =>
    intro h
    obtain ⟨x, hx⟩ :=
      cosineSimilarity_ok_of_length (show q.length = d.embedding.length from
        (h d (List.mem_cons_self d rest)).symm)
    obtain ⟨tail, ht⟩ := ih (fun d' hd' => h d' (List.mem_cons_of_mem d hd'))
    exact ⟨{ doc := d, score := x } :: tail, by simp only [scoreDocs, hx, ht]⟩

theorem distDocs_ok_spec (q : List ℝ) :
    ∀ (docs : List StoredDoc) (scored : List DistResult),
      distDocs q docs = .ok scored →
      scored.map (fun x => x.doc) = docs ∧
      ∀ x ∈ scored, euclideanDistance q x.doc.embedding = .ok x.distance := by
  intro docs
  induction docs with
  | nil =>
    intro scored h
    simp only [distDocs] at h
    injection h with h'
    subst h'
    simp
  | cons d rest ih =>
    intro scored h
    simp only [distDocs] at h
    cases hc : euclideanDistance q d.embedding with
    | error e => rw [hc] at h; exact Except.noConfusion h
    | ok dist =>
      rw [hc] at h
      cases hs : distDocs q rest with
      | error e => rw [hs] at h; exact Except.noConfusion h
      | ok tail =>
        rw [hs] at h
        injection h with h'
        subst h'
        obtain ⟨hmap, hall⟩ := ih tail hs
        refine ⟨by simp [hmap], ?_⟩
        intro x hx
        rcases List.mem_cons.mp hx with rfl | hx'
        · exact hc
        · exact hall x hx'

/-! ## Claims about the metric library and the store -/

/-- C3: `cosineSimilarity` and `euclideanDistance` fail with the
`DimensionMismatch` error exactly on vectors of unequal length (and
succeed on equal lengths), and `search` fails with that same error
exactly when the store holds a record whose embedding length differs
from the query vector's (the traversal aborts at the first mismatching
comparison, so the error propagates out of the whole call). -/
theorem claim3_dimension_mismatch :
    (∀ a b : List ℝ, a.length ≠ b.length →
      cosineSimilarity a b = .error dimensionMismatch ∧
      euclideanDistance a b = .error dimensionMismatch) ∧
    (∀ a b : List ℝ, a.length = b.length →
      (∃ x, cosineSimilarity a b = .ok x) ∧ ∃ y, euclideanDistance a b = .ok y) ∧
    ∀ (s : VectorStore) (q : List ℝ) (k : Nat) (t : ℝ),
      ((s.search q k t).1 = .error dimensionMismatch ↔
        ∃ d ∈ s.documents, d.embedding.length ≠ q.length) := by
  refine ⟨?_, ?_, ?_⟩
  · intro a b h
    exact ⟨(cosineSimilarity_eq_error_iff a b _).mpr ⟨rfl, h⟩,
      (euclideanDistance_eq_error_iff a b _).mpr ⟨rfl, h⟩⟩
  · intro a b h
    exact ⟨cosineSimilarity_ok_of_length h, ⟨_, euclideanDistance_ok_of_length h⟩⟩
  · intro s q k t
    constructor
    · intro h
      by_contra hc
      push_neg at hc
      obtain ⟨scored, hs⟩ := scoreDocs_ok_of_match q s.documents hc
      simp only [VectorStore.search, hs] at h
      exact Except.noConfusion h
    · intro hex
      have hs := scoreDocs_error_of_mismatch q s.documents hex
      simp only [VectorStore.search, hs]

/-- Witness for C3 at concrete vectors of lengths 1 and 2, and a
one-document store of dimensionality 2 queried with a 1-dimensional
vector. -/
theorem claim3_dimension_mismatch_witness :
    cosineSimilarity [(1 : ℝ)] [1, 2] = .error dimensionMismatch ∧
    euclideanDistance [(1 : ℝ)] [1, 2] = .error dimensionMismatch ∧
    (∃ x, cosineSimilarity [(1 : ℝ), 2] [3, 4] = .ok x) ∧
    ((VectorStore.new.addDocument [] [(1 : ℝ), 2] [] []).2.search [1] 5 0).1 =
      .error dimensionMismatch := by
  obtain ⟨h1, h2, h3⟩ := claim3_dimension_mismatch
  refine ⟨(h1 [(1 : ℝ)] [1, 2] (by decide)).1, (h1 [(1 : ℝ)] [1, 2] (by decide)).2,
    (h2 [(1 : ℝ), 2] [3, 4] rfl).1, ?_⟩
  refine (h3 _ [1] 5 0).mpr
    ⟨{ id := 1, text := [], embedding := [1, 2], metadata := [], timestamp := [] }, ?_, ?_⟩
  · simp [VectorStore.addDocument, VectorStore.new]
  · decide

/-- C4: on equal-length vectors with at least one zero magnitude,
`cosineSimilarity` returns exactly `.ok 0` (no NaN — the model has no
NaN at all — and no error). -/
theorem claim4_zero_magnitude (a b : List ℝ) (hlen : a.length = b.length)
    (h : Real.sqrt ((a.map (fun x => x * x)).sum) = 0 ∨
      Real.sqrt ((b.map (fun x => x * x)).sum) = 0) :
    cosineSimilarity a b = .ok 0 := by
  simp only [cosineSimilarity]
  rw [if_neg (not_ne_iff.mpr hlen), if_pos h]

/-- Witness for C4: the all-zero vector paired with `[3, 4]`. -/
theorem claim4_zero_magnitude_witness :
    cosineSimilarity [(0 : ℝ), 0] [3, 4] = .ok 0 :=
  claim4_zero_magnitude [0, 0] [3, 4] rfl (Or.inl (by norm_num))

/-- C5: from a fresh store the adds are assigned ids 1, 2, 3 in order;
deleting id 2 succeeds, never changes the counter, and the next add
yields id 4 (no reuse); after `clear()` the next add yields id 1. -/
theorem claim5_id_monotonicity (t1 t2 t3 t4 t5 : List Char)
    (e1 e2 e3 e4 e5 : List ℝ) (m1 m2 m3 m4 m5 : List (List Char × List Char))
    (n1 n2 n3 n4 n5 : List Char) :
    (VectorStore.new.addDocument t1 e1 m1 n1).1.id = 1 ∧
    ((VectorStore.new.addDocument t1 e1 m1 n1).2.addDocument t2 e2 m2 n2).1.id = 2 ∧
    (((VectorStore.new.addDocument t1 e1 m1 n1).2.addDocument t2 e2 m2 n2).2.addDocument
      t3 e3 m3 n3).1.id = 3 ∧
    ((((VectorStore.new.addDocument t1 e1 m1 n1).2.addDocument t2 e2 m2 n2).2.addDocument
      t3 e3 m3 n3).2.deleteDocument 2).1 = true ∧
    (((((VectorStore.new.addDocument t1 e1 m1 n1).2.addDocument t2 e2 m2 n2).2.addDocument
      t3 e3 m3 n3).2.deleteDocument 2).2.addDocument t4 e4 m4 n4).1.id = 4 ∧
    ((((((VectorStore.new.addDocument t1 e1 m1 n1).2.addDocument t2 e2 m2 n2).2.addDocument
      t3 e3 m3 n3).2.deleteDocument 2).2.addDocument t4 e4 m4 n4).2.clear.addDocument
      t5 e5 m5 n5).1.id = 1 ∧
    ∀ (s : VectorStore) (id : Nat), ((s.deleteDocument id).2).nextId = s.nextId := by
  refine ⟨rfl, rfl, rfl, rfl, rfl, rfl, ?_⟩
  intro s id
  unfold VectorStore.deleteDocument
  cases h : s.documents.findIdx? (fun doc => doc.id == id) <;> rfl

/-- C10: `search` and `searchByDistance` leave the store unchanged — the
documents (records, fields and order) and the next-id counter after the
call are exactly those before, and stored records never acquire a
`score`/`distance` field (results are separate `ScoredResult` /
`DistResult` values built from copies of the record). -/
theorem claim10_search_leaves_store (s : VectorStore) (q : List ℝ) (k : Nat)
    (t : ℝ) (m : WithTop ℝ) :
    (s.search q k t).2 = s ∧
    ((s.search q k t).2).documents = s.documents ∧
    ((s.search q k t).2).nextId = s.nextId ∧
    (s.searchByDistance q k m).2 = s ∧
    ((s.searchByDistance q k m).2).documents = s.documents ∧
    ((s.searchByDistance q k m).2).nextId = s.nextId :=
  ⟨rfl, rfl, rfl, rfl, rfl, rfl⟩

/-! ## Stable sorting facts

`Array.prototype.sort` with a consistent comparator is a stable sort;
`List.mergeSort` is its model.  The fiber lemma says a stable sort
preserves the relative order (in fact the exact sequence) of the
elements sharing any one sort key. -/

theorem filter_mergeSort_fiber {α : Type*} (le : α → α → Bool) (p : α → Bool)
    (trans : ∀ a b c : α, le a b → le b c → le a c)
    (total : ∀ a b : α, le a b || le b a)
    (hp : ∀ a b : α, p a = true → p b = true → le a b = true)
    (l : List α) : (l.mergeSort le).filter p = l.filter p := by
  have hpair : (l.filter p).Pairwise (fun a b => le a b = true) :=
    List.pairwise_of_forall_mem_list fun a ha b hb =>
      hp a b (List.of_mem_filter ha) (List.of_mem_filter hb)
  have h1 : List.Sublist (l.filter p) (l.mergeSort le) :=
    List.sublist_mergeSort trans total hpair (List.filter_sublist l)
  have h2 : List.Perm ((l.mergeSort le).filter p) (l.filter p) := (List.mergeSort_perm l le).filter p
  have h4 : (l.filter p).filter p = l.filter p := by
    rw [List.filter_filter]
    simp
  have h3 : List.Sublist (l.filter p) ((l.mergeSort le).filter p) := by
    have h5 := h1.filter p
    rwa [h4] at h5
  exact (h3.eq_of_length h2.length_eq.symm).symm

theorem scoreDesc_trans : ∀ a b c : ScoredResult,
    (fun a b : ScoredResult => decide (b.score ≤ a.score)) a b →
    (fun a b : ScoredResult => decide (b.score ≤ a.score)) b c →
    (fun a b : ScoredResult => decide (b.score ≤ a.score)) a c :=
  fun _ _ _ hab hbc =>
    decide_eq_true (le_trans (of_decide_eq_true hbc) (of_decide_eq_true hab))

theorem scoreDesc_total : ∀ a b : ScoredResult,
    (fun a b : ScoredResult => decide (b.score ≤ a.score)) a b ||
    (fun a b : ScoredResult => decide (b.score ≤ a.score)) b a := by
  intro a b
  rcases le_total b.score a.score with h | h <;> simp [h]

theorem distAsc_trans : ∀ a b c : DistResult,
    (fun a b : DistResult => decide (a.distance ≤ b.distance)) a b →
    (fun a b : DistResult => decide (a.distance ≤ b.distance)) b c →
    (fun a b : DistResult => decide (a.distance ≤ b.distance)) a c :=
  fun _ _ _ hab hbc =>
    decide_eq_true (le_trans (of_decide_eq_true hab) (of_decide_eq_true hbc))

theorem distAsc_total : ∀ a b : DistResult,
    (fun a b : DistResult => decide (a.distance ≤ b.distance)) a b ||
    (fun a b : DistResult => decide (a.distance ≤ b.distance)) b a := by
  intro a b
  rcases le_total a.distance b.distance with h | h <;> simp [h]

theorem euclideanDistance_self (v : List ℝ) : euclideanDistance v v = .ok 0 := by
  rw [euclideanDistance_ok_of_length rfl]
  have hz : (List.zipWith (fun x y => (x - y) ^ 2) v v).sum = 0 := by
    rw [List.zipWith_same]
    exact List.sum_eq_zero fun x hx => by
      obtain ⟨a, -, rfl⟩ := List.mem_map.mp hx
      simp
  rw [hz, Real.sqrt_zero]

/-- C6: whenever `search` succeeds, its result is the `topK`-prefix of a
stable descending sort (by cosine score against the query) of exactly
the scored records meeting `threshold`: the scored list matches the
store's documents pointwise in insertion order, the sort output is a
permutation of the `score ≥ threshold` records, is sorted descending,
preserves insertion order within every equal-score fiber, and the
returned list is its `take topK`, of length `min topK (kept records)`. -/
theorem claim6_search_spec (s : VectorStore) (q : List ℝ) (k : Nat) (t : ℝ)
    (r : List ScoredResult) (h : (s.search q k t).1 = .ok r) :
    ∃ scored : List ScoredResult,
      scoreDocs q s.documents = .ok scored ∧
      scored.map (fun x => x.doc) = s.documents ∧
      (∀ x ∈ scored, cosineSimilarity q x.doc.embedding = .ok x.score) ∧
      ∃ sorted : List ScoredResult,
        List.Perm sorted (scored.filter (fun x => decide (t ≤ x.score))) ∧
        sorted.Pairwise (fun a b => b.score ≤ a.score) ∧
        (∀ c : ℝ, sorted.filter (fun x => decide (x.score = c)) =
          (scored.filter (fun x => decide (t ≤ x.score))).filter
            (fun x => decide (x.score = c))) ∧
        r = sorted.take k ∧
        r.length = min k (scored.filter (fun x => decide (t ≤ x.score))).length := by
  cases hs : scoreDocs q s.documents with
  | error e =>
    simp only [VectorStore.search, hs] at h
    exact Except.noConfusion h
  | ok scored =>
    simp only [VectorStore.search, hs] at h
    injection h with h'
    obtain ⟨hmap, hall⟩ := scoreDocs_ok_spec q s.documents scored hs
    refine ⟨scored, rfl, hmap, hall,
      (scored.filter (fun x => decide (t ≤ x.score))).mergeSort
        (fun a b => decide (b.score ≤ a.score)),
      List.mergeSort_perm _ _, ?_, ?_, h'.symm, ?_⟩
    · exact (List.sorted_mergeSort scoreDesc_trans scoreDesc_total _).imp
        fun hab => of_decide_eq_true hab
    · intro c
      exact filter_mergeSort_fiber _ _ scoreDesc_trans scoreDesc_total
        (fun a b ha hb =>
          decide_eq_true (by
            rw [of_decide_eq_true ha, of_decide_eq_true hb])) _
    · rw [← h', List.length_take, List.length_mergeSort]

/-- Witness for C6: a one-document store whose embedding is the zero
vector `[0]`, searched with query `[0]`, `topK = 5`, `threshold = 0`. -/
theorem claim6_search_spec_witness :
    (((VectorStore.new.addDocument [] [(0 : ℝ)] [] []).2.search [0] 5 0).1 =
      .ok [{ doc := sampleDoc [0], score := 0 }]) ∧
    ∃ scored : List ScoredResult,
      scoreDocs [(0 : ℝ)]
        ((VectorStore.new.addDocument [] [(0 : ℝ)] [] []).2).documents =
        .ok scored ∧
      scored.map (fun x => x.doc) =
        ((VectorStore.new.addDocument [] [(0 : ℝ)] [] []).2).documents ∧
      (∀ x ∈ scored, cosineSimilarity [(0 : ℝ)] x.doc.embedding = .ok x.score) ∧
      ∃ sorted : List ScoredResult,
        List.Perm sorted (scored.filter (fun x => decide ((0 : ℝ) ≤ x.score))) ∧
        sorted.Pairwise (fun a b => b.score ≤ a.score) ∧
        (∀ c : ℝ, sorted.filter (fun x => decide (x.score = c)) =
          (scored.filter (fun x => decide ((0 : ℝ) ≤ x.score))).filter
            (fun x => decide (x.score = c))) ∧
        [{ doc := sampleDoc [0], score := (0 : ℝ) }] = sorted.take 5 ∧
        ([{ doc := sampleDoc [0], score := (0 : ℝ) }] : List ScoredResult).length =
          min 5 (scored.filter (fun x => decide ((0 : ℝ) ≤ x.score))).length := by
  have hcos : cosineSimilarity [(0 : ℝ)] [0] = .ok 0 := by
    simp only [cosineSimilarity]
    rw [if_neg (by simp), if_pos (Or.inl (by norm_num))]
  have hsd : scoreDocs [(0 : ℝ)]
      [sampleDoc [0]] = .ok [{ doc := sampleDoc [0], score := 0 }] := by
    simp only [scoreDocs, sampleDoc, hcos]
  have hok : (((VectorStore.new.addDocument [] [(0 : ℝ)] [] []).2.search [0] 5 0).1 =
      .ok [{ doc := sampleDoc [0], score := 0 }]) := by
    have hstore : (VectorStore.new.addDocument [] [(0 : ℝ)] [] []).2.documents =
        [sampleDoc [0]] := rfl
    simp only [VectorStore.search, hstore, hsd]
    simp [List.filter_cons]
  exact ⟨hok, claim6_search_spec _ [0] 5 0 _ hok⟩

/-- C7: whenever `searchByDistance` succeeds, its result is the
`topK`-prefix of a stable ascending sort (by Euclidean distance to the
query) of exactly the records within `maxDistance` (default `⊤`,
i.e. unbounded); moreover a vector's distance to itself is `0`, and if
some stored record's embedding equals the query (with `topK ≥ 1` and a
nonnegative bound) the first returned result has distance `0`. -/
theorem claim7_searchByDistance_spec (s : VectorStore) (q : List ℝ) (k : Nat)
    (m : WithTop ℝ) (r : List DistResult)
    (h : (s.searchByDistance q k m).1 = .ok r) :
    (∀ v : List ℝ, euclideanDistance v v = .ok 0) ∧
    ∃ scored : List DistResult,
      distDocs q s.documents = .ok scored ∧
      scored.map (fun x => x.doc) = s.documents ∧
      (∀ x ∈ scored, euclideanDistance q x.doc.embedding = .ok x.distance) ∧
      ∃ sorted : List DistResult,
        List.Perm sorted (scored.filter (fun x => decide ((x.distance : WithTop ℝ) ≤ m))) ∧
        sorted.Pairwise (fun a b => a.distance ≤ b.distance) ∧
        (∀ c : ℝ, sorted.filter (fun x => decide (x.distance = c)) =
          (scored.filter (fun x => decide ((x.distance : WithTop ℝ) ≤ m))).filter
            (fun x => decide (x.distance = c))) ∧
        r = sorted.take k ∧
        r.length = min k
          (scored.filter (fun x => decide ((x.distance : WithTop ℝ) ≤ m))).length ∧
        ∀ doc ∈ s.documents, doc.embedding = q → 1 ≤ k → (0 : WithTop ℝ) ≤ m →
          ∃ y, r.head? = some y ∧ y.distance = 0 := by
  cases hs : distDocs q s.documents with
  | error e =>
    simp only [VectorStore.searchByDistance, hs] at h
    exact Except.noConfusion h
  | ok scored =>
    simp only [VectorStore.searchByDistance, hs] at h
    injection h with h'
    obtain ⟨hmap, hall⟩ := distDocs_ok_spec q s.documents scored hs
    have hpairProp : ((scored.filter
        (fun x => decide ((x.distance : WithTop ℝ) ≤ m))).mergeSort
          (fun a b => decide (a.distance ≤ b.distance))).Pairwise
        (fun a b => a.distance ≤ b.distance) :=
      (List.sorted_mergeSort distAsc_trans distAsc_total _).imp
        fun hab => of_decide_eq_true hab
    refine ⟨euclideanDistance_self, scored, rfl, hmap, hall,
      (scored.filter (fun x => decide ((x.distance : WithTop ℝ) ≤ m))).mergeSort
        (fun a b => decide (a.distance ≤ b.distance)),
      List.mergeSort_perm _ _, hpairProp, ?_, h'.symm, ?_, ?_⟩
    · intro c
      exact filter_mergeSort_fiber _ _ distAsc_trans distAsc_total
        (fun a b ha hb =>
          decide_eq_true (by
            rw [of_decide_eq_true ha, of_decide_eq_true hb])) _
    · rw [← h', List.length_take, List.length_mergeSort]
    · intro doc hdoc heq hk hm
      rw [← hmap] at hdoc
      obtain ⟨x0, hx0mem, hx0doc⟩ := List.mem_map.mp hdoc
      have hx0d := hall x0 hx0mem
      rw [hx0doc, heq] at hx0d
      have h0 : x0.distance = 0 := by
        rw [euclideanDistance_self q] at hx0d
        injection hx0d with h0'
        exact h0'.symm
      have hx0keep : x0 ∈ scored.filter
          (fun x => decide ((x.distance : WithTop ℝ) ≤ m)) := by
        refine List.mem_filter.mpr ⟨hx0mem, decide_eq_true ?_⟩
        rw [h0, WithTop.coe_zero]
        exact hm
      have hx0sorted : x0 ∈ (scored.filter
          (fun x => decide ((x.distance : WithTop ℝ) ≤ m))).mergeSort
            (fun a b => decide (a.distance ≤ b.distance)) :=
        List.mem_mergeSort.mpr hx0keep
      cases hsort : (scored.filter
          (fun x => decide ((x.distance : WithTop ℝ) ≤ m))).mergeSort
            (fun a b => decide (a.distance ≤ b.distance)) with
      | nil =>
        rw [hsort] at hx0sorted
        cases hx0sorted
      | cons y ys =>
        obtain ⟨k', rfl⟩ : ∃ j, k = j + 1 := ⟨k - 1, by omega⟩
        have hr : r = y :: ys.take k' := by
          rw [← h', hsort, List.take_succ_cons]
        refine ⟨y, by rw [hr]; rfl, ?_⟩
        have hymem : y ∈ scored := by
          have hy0 : y ∈ (scored.filter
              (fun x => decide ((x.distance : WithTop ℝ) ≤ m))).mergeSort
                (fun a b => decide (a.distance ≤ b.distance)) := by
            rw [hsort]
            exact List.mem_cons_self y ys
          exact (List.mem_filter.mp (List.mem_mergeSort.mp hy0)).1
        have hynn : 0 ≤ y.distance := euclideanDistance_nonneg (hall y hymem)
        have hyle : y.distance ≤ x0.distance := by
          rw [hsort] at hx0sorted
          rcases List.mem_cons.mp hx0sorted with rfl | hmem'
          · exact le_refl _
          · rw [hsort] at hpairProp
            exact List.rel_of_pairwise_cons hpairProp hmem'
        rw [h0] at hyle
        exact le_antisymm hyle hynn

/-- Witness for C7: a one-document store whose embedding `[0]` equals
the query, `topK = 5`, unbounded distance; the stored record has
distance `0` and is the first (only) result. -/
theorem claim7_searchByDistance_spec_witness :
    (((VectorStore.new.addDocument [] [(0 : ℝ)] [] []).2.searchByDistance [0] 5 ⊤).1 =
      .ok [{ doc := sampleDoc [0], distance := 0 }]) ∧
    euclideanDistance [(0 : ℝ), 1] [0, 1] = .ok 0 ∧
    ∃ y, ([{ doc := sampleDoc [0], distance := (0 : ℝ) }] : List DistResult).head? = some y ∧
      y.distance = 0 := by
  have heu : euclideanDistance [(0 : ℝ)] [0] = .ok 0 := by
    rw [euclideanDistance_ok_of_length rfl]
    norm_num
  have hsd : distDocs [(0 : ℝ)]
      [sampleDoc [0]] = .ok [{ doc := sampleDoc [0], distance := 0 }] := by
    simp only [distDocs, sampleDoc, heu]
  have hok : (((VectorStore.new.addDocument [] [(0 : ℝ)] [] []).2.searchByDistance
      [0] 5 ⊤).1 =
      .ok [{ doc := sampleDoc [0], distance := 0 }]) := by
    have hstore : (VectorStore.new.addDocument [] [(0 : ℝ)] [] []).2.documents =
        [sampleDoc [0]] := rfl
    simp only [VectorStore.searchByDistance, hstore, hsd]
    simp [List.filter_cons]
  have h7 := claim7_searchByDistance_spec _ [0] 5 ⊤ _ hok
  obtain ⟨hself, scored, hsc, hmap, hall, sorted, hperm, hpair, hfib, hr, hlen, hrank⟩ := h7
  refine ⟨hok, hself [0, 1], ?_⟩
  exact hrank (sampleDoc [0])
    (by simp [sampleDoc, VectorStore.addDocument, VectorStore.new]) rfl (by omega) le_top

end VecEmb
